import Mathlib

/-! XE-Utilities, `Function_Graph/cpp`: arithmetic and console helpers

A shallow embedding of `math_ops.cpp` and `string_ops.cpp`.

* `int` is modelled as `Int`; every arithmetic result that can leave the
  32-bit range is reduced with `wrap32` (two's-complement wraparound).
* `const int* arr` is modelled as the list of the cells that may be read
  through the pointer; reading past its end is the undefined-behaviour
  branch and yields `none`.
* `const char*` is modelled as `Option String` where the code tests the
  pointer (`none` is the null pointer) and as `String` where it does not.
* `std::cout` is modelled as the text written so far; every `<<` appends.
-/

namespace XEUtil

/-! ## 32-bit signed integers -/

/-- Smallest value of a 32-bit signed integer. -/
def INT_MIN : Int := -2147483648

/-- Largest value of a 32-bit signed integer. -/
def INT_MAX : Int := 2147483647

/-- The integer `z` is representable as a 32-bit signed integer. -/
def isInt32 (z : Int) : Prop := INT_MIN ≤ z ∧ z ≤ INT_MAX

instance (z : Int) : Decidable (isInt32 z) := by
  unfold isInt32; infer_instance

/-- Two's-complement reduction of a mathematical integer to 32 bits. -/
def wrap32 (z : Int) : Int := (z + 2147483648) % 4294967296 - 2147483648

/-! ## math_ops.cpp -/

/-- Source: `int square(int x) { return x * x; }` -/
def square (x : Int) : Int := wrap32 (x * x)

/-- Source: `int cube(int x) { return x * square(x); }` -/
def cube (x : Int) : Int := wrap32 (x * square x)

/-- Source: `int factorial(int n)`, body `if (n <= 1) return 1; return n * factorial(n - 1);`
The subtraction `n - 1` is only evaluated for `n > 1`, where it cannot
leave the 32-bit range. -/
def factorial (n : Int) : Int :=
  if n ≤ 1 then 1
  else wrap32 (n * factorial (n - 1))
termination_by n.toNat
decreasing_by omega

/-- The function `factorial` instrumented with its call tree: the result
together with the arguments of the recursive calls, outermost first. -/
def factorialTrace (n : Int) : Int × List Int :=
  if n ≤ 1 then (1, [])
  else
    let r := factorialTrace (n - 1)
    (wrap32 (n * r.1), (n - 1) :: r.2)
termination_by n.toNat
decreasing_by omega

/-- The function `factorial` run with a bound on the number of nested call
frames: `fuel` frames are available, the call itself takes one, and `none`
means that the bound was reached before the base case. -/
def factorialFuel : Nat → Int → Option Int
  | 0, _ => none
  | fuel + 1, n =>
    if n ≤ 1 then some 1
    else
      match factorialFuel fuel (n - 1) with
      | none => none
      | some r => some (wrap32 (n * r))

/-- The iterative loop of the specification's design note, written from its
words and not from the source: start with `acc = 1` and multiply `acc` by
`i` for `i = 2, 3, ..., n`, with the same 32-bit wraparound. -/
def factorial_iterative (n : Int) : Int :=
  (List.range' 2 (n.toNat - 1)).foldl (fun (acc : Int) (i : Nat) => wrap32 (acc * (i : Int))) 1

/-- The loop of `sum_array`, entered with loop counter `i` and accumulator
`sum`: `for (; i < size; ++i) sum += arr[i];`.  The counter satisfies
`i < size` when it is incremented, so `++i` cannot overflow. -/
def sum_array_loop (arr : List Int) (size : Int) (i : Int) (sum : Int) : Option Int :=
  if i < size then
    match arr[i.toNat]? with
    | none => none
    | some a => sum_array_loop arr size (i + 1) (wrap32 (sum + a))
  else some sum
termination_by (size - i).toNat
decreasing_by omega

/-- Source: `int sum_array(const int* arr, int size)`, body `int sum = 0;`, the loop,
`return sum;`. -/
def sum_array (arr : List Int) (size : Int) : Option Int :=
  sum_array_loop arr size 0 0

/-- Record of one run of `sum_array`: the value returned (`none` for an
out-of-bounds read), the indices read through `arr` in the order of the
reads, and the cells of the array when the call returns. -/
structure SumRun where
  result : Option Int
  reads : List Int
  cells : List Int
deriving DecidableEq

/-- The loop of `sum_array` instrumented with its memory accesses: every
evaluation of `arr[i]` records the index `i`; the body contains no store, so
the cells are handed on as they are. -/
def sum_array_run_loop (arr : List Int) (size : Int) (i : Int) (sum : Int) : SumRun :=
  if i < size then
    match arr[i.toNat]? with
    | none => { result := none, reads := [i], cells := arr }
    | some a =>
      let r := sum_array_run_loop arr size (i + 1) (wrap32 (sum + a))
      { result := r.result, reads := i :: r.reads, cells := r.cells }
  else { result := some sum, reads := [], cells := arr }
termination_by (size - i).toNat
decreasing_by omega

/-- The function `sum_array` instrumented with its memory accesses. -/
def sum_array_run (arr : List Int) (size : Int) : SumRun :=
  sum_array_run_loop arr size 0 0

/-! ## string_ops.cpp

The stream `std::cout` is the text written to it so far, in its initial
formatting state (decimal, no field width, no failure bit). -/

/-- Stream insertion `os << s` for a character string `s`: the characters of `s` are appended. -/
def put_str (os : String) (s : String) : String := os ++ s

/-- Decimal rendering of an `int` as `operator<<` writes it: a minus sign
for a negative value, then the digits of the magnitude, most significant
first and without leading zeros. -/
def decimal (v : Int) : String :=
  if v < 0 then "-" ++ String.mk (Nat.toDigits 10 v.natAbs)
  else String.mk (Nat.toDigits 10 v.natAbs)

/-- Stream insertion `os << v` for an `int` value `v`. -/
def put_int (os : String) (v : Int) : String := os ++ decimal v

/-- Stream insertion `os << std::endl`: one line break is appended (the flush that follows
does not change the text). -/
def put_endl (os : String) : String := os ++ "\n"

/-- Source: `void print_result(const char* label, int value)`:
`std::cout << label << ": " << value << std::endl;`. -/
def print_result (label : String) (value : Int) (os : String) : String :=
  put_endl (put_int (put_str (put_str os label) ": ") value)

/-- Source: `void echo_input(const char* input)`:
`if (input) { std::cout << "Input: " << input << std::endl; }`.
The null pointer is `none`. -/
def echo_input (input : Option String) (os : String) : String :=
  match input with
  | some s => put_endl (put_str (put_str os "Input: ") s)
  | none => os

/-- Source: `void math_demo()`, body `int values[3] = {1, 2, 3};`,
`int total = sum_array(values, 3);`, then three calls of `print_result`. -/
def math_demo (os : String) : Option String :=
  let values : List Int := [1, 2, 3]
  match sum_array values 3 with
  | none => none
  | some total =>
    let os1 := print_result "Sum" total os
    let os2 := print_result "Square" (square 4) os1
    some (print_result "Cube" (cube 2) os2)

/-- Source: `void string_demo()`, body `echo_input("Hello from string_demo");` then
`print_result("Factorial(5)", factorial(5));`. -/
def string_demo (os : String) : String :=
  let os1 := echo_input (some "Hello from string_demo") os
  print_result "Factorial(5)" (factorial 5) os1

/-! ## Reading a decimal rendering back -/

/-- Value of a sequence of decimal digit characters, most significant first. -/
def digitsValue (cs : List Char) : Nat :=
  cs.foldl (fun acc c => 10 * acc + (c.toNat - 48)) 0

/-- Value of a signed decimal numeral: an optional leading minus sign and
then decimal digits. -/
def decimalValue (s : String) : Int :=
  match s.data with
  | '-' :: cs => -(digitsValue cs : Int)
  | cs => (digitsValue cs : Int)

/-- Every character is one of `0` … `9`. -/
def allDigits (cs : List Char) : Prop := ∀ c ∈ cs, '0' ≤ c ∧ c ≤ '9'

/-! ## Wraparound arithmetic -/

theorem wrap32_isInt32 (z : Int) : isInt32 (wrap32 z) := by
  unfold isInt32 wrap32 INT_MIN INT_MAX
  omega

theorem wrap32_of_isInt32 (z : Int) (h : isInt32 z) : wrap32 z = z := by
  unfold isInt32 INT_MIN INT_MAX at h
  unfold wrap32
  omega

theorem wrap32_sub_emod (z : Int) : (wrap32 z - z) % 4294967296 = 0 := by
  unfold wrap32
  omega

theorem wrap32_eq_of_emod (a b : Int) (h : (a - b) % 4294967296 = 0) :
    wrap32 a = wrap32 b := by
  unfold wrap32
  omega

theorem wrap32_mul_wrap32 (x y : Int) : wrap32 (x * wrap32 y) = wrap32 (x * y) := by
  apply wrap32_eq_of_emod
  have h : (4294967296 : Int) ∣ wrap32 y - y :=
    Int.dvd_of_emod_eq_zero (wrap32_sub_emod y)
  have h2 : x * wrap32 y - x * y = x * (wrap32 y - y) := by ring
  rw [h2]
  exact Int.emod_eq_zero_of_dvd (Dvd.dvd.mul_left h x)

theorem wrap32_add_wrap32_left (a b : Int) : wrap32 (wrap32 a + b) = wrap32 (a + b) := by
  apply wrap32_eq_of_emod
  have h := wrap32_sub_emod a
  omega

theorem square_fits_iff (x : Int) : isInt32 (x * x) ↔ |x| ≤ 46340 := by
  unfold isInt32 INT_MIN INT_MAX
  constructor
  · rintro ⟨_, h⟩
    by_contra hc
    push_neg at hc
    have h1 : (46341 : Int) * 46341 ≤ |x| * |x| :=
      mul_le_mul (by omega) (by omega) (by norm_num) (abs_nonneg x)
    rw [abs_mul_abs_self] at h1
    omega
  · intro h
    have h1 : |x| * |x| ≤ 46340 * 46340 :=
      mul_le_mul h h (abs_nonneg x) (by norm_num)
    rw [abs_mul_abs_self] at h1
    have h2 : 0 ≤ x * x := mul_self_nonneg x
    constructor <;> omega

/-! ## `square` -/

/-- C1: for every 32-bit `x` (indeed for every integer), `square x` is the
32-bit value congruent to `x * x` modulo `2 ^ 32`, that is `x * x` reduced by
two's-complement wraparound; it is exactly `x * x` whenever that product
fits in 32 bits, which is the case exactly when `|x| ≤ 46340`. -/
theorem square_spec (x : Int) :
    square x = wrap32 (x * x) ∧
      isInt32 (square x) ∧ (square x - x * x) % 2 ^ 32 = 0 ∧
      (isInt32 (x * x) → square x = x * x) ∧
      (isInt32 (x * x) ↔ |x| ≤ 46340) ∧
      (|x| ≤ 46340 → square x = x * x) := by
  refine ⟨rfl, wrap32_isInt32 _, wrap32_sub_emod _, ?_, square_fits_iff x, ?_⟩
  · intro h
    exact wrap32_of_isInt32 _ h
  · intro h
    exact wrap32_of_isInt32 _ ((square_fits_iff x).mpr h)

theorem square_spec_witness :
    |(-46340 : Int)| ≤ 46340 ∧ square (-46340) = (-46340) * (-46340) :=
  ⟨by decide, (square_spec (-46340)).2.2.2.2.2 (by decide)⟩

/-! ## `cube` -/

theorem cube_fits_iff (x : Int) : isInt32 (x * x * x) ↔ |x| ≤ 1290 := by
  have habs : |x * x * x| = |x| * |x| * |x| := by rw [abs_mul, abs_mul]
  have h0 : 0 ≤ |x| := abs_nonneg x
  unfold isInt32 INT_MIN INT_MAX
  constructor
  · rintro ⟨hlo, hhi⟩
    by_contra hc
    push_neg at hc
    have h1 : (1291 : Int) * 1291 ≤ |x| * |x| :=
      mul_le_mul (by omega) (by omega) (by norm_num) h0
    have h2 : (1291 : Int) * 1291 * 1291 ≤ |x| * |x| * |x| :=
      mul_le_mul h1 (by omega) (by norm_num) (mul_nonneg h0 h0)
    rw [← habs] at h2
    have h3 : |x * x * x| ≤ 2147483648 := abs_le.mpr ⟨by omega, by omega⟩
    omega
  · intro h
    have h1 : |x| * |x| ≤ 1290 * 1290 := mul_le_mul h h h0 (by norm_num)
    have h2 : |x| * |x| * |x| ≤ 1290 * 1290 * 1290 :=
      mul_le_mul h1 h h0 (by norm_num)
    rw [← habs] at h2
    have h3 := abs_le.mp h2
    constructor <;> omega

/-- C2: for every 32-bit `x` (indeed for every integer), `cube x`, computed
as `x * square x`, is the 32-bit value congruent to `x * x * x` modulo
`2 ^ 32`: the wraparound inside `square` does not change the wrapped result.
It is exactly `x * x * x` whenever that product fits in 32 bits, which is
the case exactly when `|x| ≤ 1290`. -/
theorem cube_spec (x : Int) :
    cube x = wrap32 (x * square x) ∧
      cube x = wrap32 (x * x * x) ∧
      isInt32 (cube x) ∧ (cube x - x * x * x) % 2 ^ 32 = 0 ∧
      (isInt32 (x * x * x) → cube x = x * x * x) ∧
      (isInt32 (x * x * x) ↔ |x| ≤ 1290) ∧
      (|x| ≤ 1290 → cube x = x * x * x) := by
  have hc : cube x = wrap32 (x * x * x) := by
    unfold cube square
    rw [wrap32_mul_wrap32, mul_assoc]
  refine ⟨rfl, hc, wrap32_isInt32 _, ?_, ?_, cube_fits_iff x, ?_⟩
  · rw [hc]
    exact wrap32_sub_emod _
  · intro h
    rw [hc]
    exact wrap32_of_isInt32 _ h
  · intro h
    rw [hc]
    exact wrap32_of_isInt32 _ ((cube_fits_iff x).mpr h)

theorem cube_spec_witness :
    |(-1290 : Int)| ≤ 1290 ∧ cube (-1290) = (-1290) * (-1290) * (-1290) :=
  ⟨by decide, (cube_spec (-1290)).2.2.2.2.2.2 (by decide)⟩

/-! ## `factorial` -/

theorem factorial_of_le_one (n : Int) (h : n ≤ 1) : factorial n = 1 := by
  rw [factorial, if_pos h]

theorem factorial_of_one_lt (n : Int) (h : 1 < n) :
    factorial n = wrap32 (n * factorial (n - 1)) := by
  rw [factorial, if_neg (not_le.mpr h)]

theorem factorialTrace_of_le_one (n : Int) (h : n ≤ 1) : factorialTrace n = (1, []) := by
  rw [factorialTrace, if_pos h]

theorem factorialTrace_of_one_lt (n : Int) (h : 1 < n) :
    factorialTrace n =
      (wrap32 (n * (factorialTrace (n - 1)).1), (n - 1) :: (factorialTrace (n - 1)).2) := by
  rw [factorialTrace, if_neg (not_le.mpr h)]

/-- The instrumented function computes the same result as `factorial`. -/
theorem factorialTrace_fst (n : Int) : (factorialTrace n).1 = factorial n := by
  generalize hm : n.toNat = m
  induction m generalizing n with
  | zero =>
    have h : n ≤ 1 := by omega
    rw [factorialTrace_of_le_one n h, factorial_of_le_one n h]
  | succ m ih =>
    by_cases h : n ≤ 1
    · rw [factorialTrace_of_le_one n h, factorial_of_le_one n h]
    · have h1 : 1 < n := not_le.mp h
      rw [factorialTrace_of_one_lt n h1, factorial_of_one_lt n h1]
      simp only
      rw [ih (n - 1) (by omega)]

/-- On a natural number the function is the wrapped mathematical factorial. -/
theorem factorial_natCast (n : Nat) : factorial (n : Int) = wrap32 (n.factorial : Int) := by
  induction n with
  | zero =>
    rw [factorial_of_le_one _ (by simp)]
    simp [wrap32]
  | succ k ih =>
    by_cases hk : k = 0
    · subst hk
      rw [factorial_of_le_one _ (by simp)]
      simp [wrap32]
    · have h1 : (1 : Int) < ((k + 1 : Nat) : Int) := by omega
      rw [factorial_of_one_lt _ h1]
      have h2 : ((k + 1 : Nat) : Int) - 1 = (k : Int) := by push_cast; ring
      rw [h2, ih, wrap32_mul_wrap32, Nat.factorial_succ]
      push_cast
      rfl

theorem factorial_le_twelve (m : Nat) (h : m ≤ 12) : isInt32 ((m.factorial : Nat) : Int) := by
  have h1 : m.factorial ≤ Nat.factorial 12 := Nat.factorial_le h
  have h2 : Nat.factorial 12 = 479001600 := by decide
  unfold isInt32 INT_MIN INT_MAX
  omega

/-- C3: for `0 ≤ n ≤ 12`, `factorial n` is exactly the mathematical `n!`,
and every product `k * factorial (k - 1)` formed on the way (for
`2 ≤ k ≤ n`) fits in 32 bits, so no multiplication overflows; in particular
`factorial 0 = 1`, `factorial 1 = 1` and `factorial 5 = 120`. -/
theorem factorial_exact (n : Int) (h0 : 0 ≤ n) (h12 : n ≤ 12) :
    factorial n = (n.toNat.factorial : Int) ∧
      (∀ k : Int, 2 ≤ k → k ≤ n →
        isInt32 (k * factorial (k - 1)) ∧
          factorial k = k * factorial (k - 1)) ∧
      factorial 0 = 1 ∧ factorial 1 = 1 ∧ factorial 5 = 120 := by
  have key : ∀ m : Nat, m ≤ 12 → factorial (m : Int) = (m.factorial : Int) := by
    intro m hm
    rw [factorial_natCast, wrap32_of_isInt32 _ (factorial_le_twelve m hm)]
  refine ⟨?_, ?_, ?_, ?_, ?_⟩
  · have h := key n.toNat (by omega)
    rwa [Int.toNat_of_nonneg h0] at h
  · intro k hk2 hkn
    have hprod : k * factorial (k - 1) = (k.toNat.factorial : Int) := by
      have hk1 : k - 1 = ((k.toNat - 1 : Nat) : Int) := by omega
      have hk : k.toNat = (k.toNat - 1) + 1 := by omega
      rw [hk1, key _ (by omega)]
      conv_rhs => rw [hk, Nat.factorial_succ]
      push_cast
      have : ((k.toNat - 1 : Nat) : Int) + 1 = k := by omega
      rw [this]
    have hfit : isInt32 (k * factorial (k - 1)) := by
      rw [hprod]
      exact factorial_le_twelve _ (by omega)
    refine ⟨hfit, ?_⟩
    rw [factorial_of_one_lt k (by omega), wrap32_of_isInt32 _ hfit]
  · exact factorial_of_le_one 0 (by decide)
  · exact factorial_of_le_one 1 (by decide)
  · have h := key 5 (by decide)
    simpa [Nat.factorial] using h

theorem factorial_exact_witness :
    (0 : Int) ≤ 12 ∧ (12 : Int) ≤ 12 ∧ factorial 12 = 479001600 :=
  ⟨by decide, by decide, by
    have h := (factorial_exact 12 (by decide) (by decide)).1
    simpa [Nat.factorial] using h⟩

/-- C4: for every `n ≤ 1`, and so for every negative `n`, `factorial n`
returns 1 through the base case: the instrumented run yields the result 1
and an empty list of recursive calls.  The function has no error result. -/
theorem factorial_base_case (n : Int) (h : n ≤ 1) :
    factorial n = 1 ∧ factorialTrace n = (1, []) :=
  ⟨factorial_of_le_one n h, factorialTrace_of_le_one n h⟩

theorem factorial_base_case_witness :
    (-7 : Int) ≤ 1 ∧ factorial (-7) = 1 ∧ factorialTrace (-7) = (1, []) :=
  ⟨by decide, factorial_base_case (-7) (by decide)⟩

/-! ## `sum_array` -/

theorem sum_array_loop_done (arr : List Int) (size i sum : Int) (h : ¬ i < size) :
    sum_array_loop arr size i sum = some sum := by
  rw [sum_array_loop, if_neg h]

theorem sum_array_loop_step (arr : List Int) (size i sum a : Int) (h : i < size)
    (ha : arr[i.toNat]? = some a) :
    sum_array_loop arr size i sum = sum_array_loop arr size (i + 1) (wrap32 (sum + a)) := by
  rw [sum_array_loop, if_pos h, ha]

theorem sum_array_loop_oob (arr : List Int) (size i sum : Int) (h : i < size)
    (ha : arr[i.toNat]? = none) :
    sum_array_loop arr size i sum = none := by
  rw [sum_array_loop, if_pos h, ha]

/-- Loop invariant: entered at index `j` with a 32-bit accumulator `s`, the
loop returns `s` plus the cells `j .. n-1`, wrapped. -/
theorem sum_array_loop_spec (arr : List Int) (n : Nat) (hn : n ≤ arr.length) :
    ∀ (m j : Nat) (s : Int), j + m = n → isInt32 s →
      sum_array_loop arr (n : Int) (j : Int) s =
        some (wrap32 (s + ((arr.take n).drop j).sum)) := by
  intro m
  induction m with
  | zero =>
    intro j s hj hs
    have hjn : j = n := by omega
    subst hjn
    rw [sum_array_loop_done _ _ _ _ (lt_irrefl _)]
    have hd : (arr.take j).drop j = [] := by
      apply List.drop_eq_nil_of_le
      simp
    rw [hd]
    simp [wrap32_of_isInt32 s hs]
  | succ m ih =>
    intro j s hj hs
    have hjn : j < n := by omega
    have hjl : j < arr.length := by omega
    have hget : arr[((j : Nat) : Int).toNat]? = some arr[j] := by
      simp [List.getElem?_eq_getElem hjl]
    rw [sum_array_loop_step arr n j s arr[j] (by exact_mod_cast hjn) hget]
    have hcast : ((j : Nat) : Int) + 1 = ((j + 1 : Nat) : Int) := by push_cast; rfl
    rw [hcast, ih (j + 1) _ (by omega) (wrap32_isInt32 _)]
    have hjt : j < (arr.take n).length := by
      simp
      omega
    have hd : (arr.take n).drop j = arr[j] :: (arr.take n).drop (j + 1) := by
      rw [List.drop_eq_getElem_cons hjt]
      simp
    rw [hd, List.sum_cons, wrap32_add_wrap32_left]
    congr 2
    ring

theorem sum_array_eq (arr : List Int) (n : Nat) (hn : n ≤ arr.length) :
    sum_array arr (n : Int) = some (wrap32 ((arr.take n).sum)) := by
  have h := sum_array_loop_spec arr n hn n 0 0 (by omega) (by decide)
  simpa [sum_array] using h

/-- C5: for `0 ≤ size ≤ length arr`, `sum_array arr size` returns the sum of
the first `size` elements, reduced by 32-bit wraparound; the elements at
index `size` and beyond do not matter; in particular
`sum_array {1,2,3} 3 = 6` and `sum_array {} 0 = 0`. -/
theorem sum_array_spec (arr : List Int) (size : Int) (h0 : 0 ≤ size)
    (hlen : size ≤ arr.length) :
    sum_array arr size = some (wrap32 ((arr.take size.toNat).sum)) ∧
      (∀ rest : List Int,
        sum_array (arr.take size.toNat ++ rest) size = sum_array arr size) ∧
      sum_array [1, 2, 3] 3 = some 6 ∧ sum_array [] 0 = some 0 := by
  obtain ⟨k, rfl⟩ := Int.eq_ofNat_of_zero_le h0
  have hn : k ≤ arr.length := by exact_mod_cast hlen
  rw [Int.toNat_ofNat]
  have h1 : sum_array arr (k : Int) = some (wrap32 ((arr.take k).sum)) :=
    sum_array_eq arr k hn
  refine ⟨h1, ?_, ?_, ?_⟩
  · intro rest
    have hl : (arr.take k).length = k := by
      simp
      omega
    rw [h1, sum_array_eq _ k (by simp; omega), List.take_left' hl]
  · have h := sum_array_eq [1, 2, 3] 3 (by decide)
    simpa [wrap32] using h
  · have h := sum_array_eq [] 0 (by decide)
    simpa [wrap32] using h

theorem sum_array_spec_witness :
    (0 : Int) ≤ 2 ∧ (2 : Int) ≤ ([2147483647, 5, 9] : List Int).length ∧
      sum_array [2147483647, 5, 9] 2 = some (-2147483644) :=
  ⟨by decide, by decide, by
    have h := (sum_array_spec [2147483647, 5, 9] 2 (by decide) (by decide)).1
    simpa [wrap32] using h⟩

/-! ## Decimal rendering -/

theorem digitChar_digit (d : Nat) (h : d < 10) :
    ('0' ≤ Nat.digitChar d ∧ Nat.digitChar d ≤ '9') ∧ (Nat.digitChar d).toNat - 48 = d := by
  interval_cases d <;> decide

theorem toDigitsCore_spec (fuel : Nat) :
    ∀ (n : Nat) (ds : List Char), n < fuel →
      ∃ L : List Char, Nat.toDigitsCore 10 fuel n ds = L ++ ds ∧ allDigits L ∧ L ≠ [] ∧
        ∀ acc : Nat, L.foldl (fun a c => 10 * a + (c.toNat - 48)) acc = acc * 10 ^ L.length + n := by
  induction fuel with
  | zero => intro n ds h; omega
  | succ fuel ih =>
    intro n ds h
    have hd := digitChar_digit (n % 10) (Nat.mod_lt _ (by decide))
    by_cases h0 : n / 10 = 0
    · refine ⟨[Nat.digitChar (n % 10)], ?_, ?_, ?_, ?_⟩
      · simp [Nat.toDigitsCore, h0]
      · intro c hc
        simp at hc
        subst hc
        exact hd.1
      · simp
      · intro acc
        simp [hd.2]
        omega
    · obtain ⟨L, hL, hall, _, hval⟩ := ih (n / 10) (Nat.digitChar (n % 10) :: ds) (by omega)
      refine ⟨L ++ [Nat.digitChar (n % 10)], ?_, ?_, ?_, ?_⟩
      · simp [Nat.toDigitsCore, h0, hL]
      · intro c hc
        rcases List.mem_append.mp hc with hc | hc
        · exact hall c hc
        · simp at hc
          subst hc
          exact hd.1
      · simp
      · intro acc
        rw [List.foldl_append, hval]
        simp [hd.2, pow_succ]
        have := Nat.div_add_mod n 10
        nlinarith

theorem toDigits_spec (n : Nat) :
    allDigits (Nat.toDigits 10 n) ∧ Nat.toDigits 10 n ≠ [] ∧
      digitsValue (Nat.toDigits 10 n) = n := by
  obtain ⟨L, hL, hall, hne, hval⟩ := toDigitsCore_spec (n + 1) n [] (by omega)
  have h : Nat.toDigits 10 n = L := by simpa [Nat.toDigits] using hL
  rw [h]
  refine ⟨hall, hne, ?_⟩
  have := hval 0
  simpa [digitsValue] using this


theorem decimal_data_neg (v : Int) (h : v < 0) :
    (decimal v).data = '-' :: Nat.toDigits 10 v.natAbs := by
  simp [decimal, h]

theorem decimal_data_nonneg (v : Int) (h : 0 ≤ v) :
    (decimal v).data = Nat.toDigits 10 v.natAbs := by
  simp [decimal, not_lt.mpr h]

theorem decimalValue_decimal (v : Int) : decimalValue (decimal v) = v := by
  obtain ⟨hall, hne, hval⟩ := toDigits_spec v.natAbs
  by_cases h : v < 0
  · unfold decimalValue
    rw [decimal_data_neg v h]
    simp only [hval]
    omega
  · have h0 : 0 ≤ v := not_lt.mp h
    unfold decimalValue
    rw [decimal_data_nonneg v h0]
    cases hL : Nat.toDigits 10 v.natAbs with
    | nil => exact absurd hL hne
    | cons c cs =>
      have hc : '0' ≤ c := (hall c (by rw [hL]; simp)).1
      have hcne : c ≠ '-' := by
        intro hEq
        subst hEq
        exact absurd hc (by decide)
      rw [hL] at hval
      split
      · rename_i heq
        simp at heq
        exact absurd heq.1 hcne
      · rw [hval]
        omega

/-! ## `print_result` and `echo_input` -/

theorem print_result_eq (label : String) (value : Int) (os : String) :
    print_result label value os = os ++ (label ++ ": " ++ decimal value ++ "\n") := by
  simp only [print_result, put_endl, put_int, put_str, String.append_assoc]

/-- C6: `echo_input` applied to the null pointer leaves the output stream
unchanged, whatever has been written before; the function has no error
result. -/
theorem echo_input_null (os : String) :
    echo_input none os = os ∧ echo_input none "" = "" :=
  ⟨rfl, rfl⟩

/-- C7: for every non-null `s`, the empty string included, `echo_input s`
appends exactly `"Input: "`, then `s`, then one line break; for example
`echo_input "x"` on an empty output gives `"Input: x\n"`. -/
theorem echo_input_nonnull (s os : String) :
    echo_input (some s) os = os ++ ("Input: " ++ s ++ "\n") ∧
      (echo_input (some s) os).data =
        os.data ++ ("Input: ".data ++ s.data ++ ['\n']) ∧
      echo_input (some "") os = os ++ "Input: \n" ∧
      echo_input (some "x") "" = "Input: x\n" := by
  have h : ∀ t : String, echo_input (some t) os = os ++ ("Input: " ++ t ++ "\n") := by
    intro t
    simp only [echo_input, put_endl, put_str, String.append_assoc]
  refine ⟨h s, ?_, ?_, by decide⟩
  · rw [h s]
    simp [String.data_append]
  · rw [h ""]
    rfl

/-- C8: for every label and every 32-bit `value` (indeed every integer),
`print_result label value` appends exactly the label, then `": "`, then the
decimal rendering of `value`, then one line break.  The rendering is a minus
sign for a negative value followed by decimal digits whose value is the
magnitude, so that reading it back gives `value`. -/
theorem print_result_spec (label : String) (value : Int) (os : String) :
    print_result label value os = os ++ (label ++ ": " ++ decimal value ++ "\n") ∧
      (print_result label value os).data =
        os.data ++ (label.data ++ [':', ' '] ++ (decimal value).data ++ ['\n']) ∧
      (value < 0 → (decimal value).data = '-' :: Nat.toDigits 10 value.natAbs) ∧
      (0 ≤ value → (decimal value).data = Nat.toDigits 10 value.natAbs) ∧
      allDigits (Nat.toDigits 10 value.natAbs) ∧
      digitsValue (Nat.toDigits 10 value.natAbs) = value.natAbs ∧
      decimalValue (decimal value) = value := by
  obtain ⟨hall, _, hval⟩ := toDigits_spec value.natAbs
  refine ⟨print_result_eq label value os, ?_, decimal_data_neg value,
    decimal_data_nonneg value, hall, hval, decimalValue_decimal value⟩
  rw [print_result_eq]
  simp [String.data_append]

theorem print_result_spec_witness :
    (-2147483648 : Int) < 0 ∧
      print_result "Min" (-2147483648) "" = "Min: -2147483648\n" ∧
      (decimal (-2147483648)).data =
        '-' :: Nat.toDigits 10 (-2147483648 : Int).natAbs :=
  ⟨by decide, by decide,
    (print_result_spec "Min" (-2147483648) "").2.2.1 (by decide)⟩

/-! ## The demo entry points -/

/-- C9: `math_demo` on an empty output produces exactly the three lines
`Sum: 6`, `Square: 16`, `Cube: 8`, in that order, each ended by a line
break; on any output it appends exactly these lines. -/
theorem math_demo_output :
    math_demo "" = some "Sum: 6\nSquare: 16\nCube: 8\n" ∧
      ∀ os : String, math_demo os = some (os ++ "Sum: 6\nSquare: 16\nCube: 8\n") := by
  have hsum : sum_array [1, 2, 3] 3 = some 6 := by
    have h := sum_array_eq [1, 2, 3] 3 (by decide)
    simpa [wrap32] using h
  have hsq : square 4 = 16 := by decide
  have hcu : cube 2 = 8 := by decide
  have hall : ∀ os : String,
      math_demo os = some (os ++ "Sum: 6\nSquare: 16\nCube: 8\n") := by
    intro os
    simp only [math_demo, hsum, hsq, hcu, print_result_eq, String.append_assoc]
    rfl
  exact ⟨hall "", hall⟩

/-- C10: `string_demo` on an empty output produces exactly the line
`Input: Hello from string_demo` and then the line `Factorial(5): 120`, each
ended by a line break; on any output it appends exactly these lines. -/
theorem string_demo_output :
    string_demo "" = "Input: Hello from string_demo\nFactorial(5): 120\n" ∧
      ∀ os : String, string_demo os =
        os ++ "Input: Hello from string_demo\nFactorial(5): 120\n" := by
  have hf : factorial 5 = 120 := by
    have h := factorial_natCast 5
    simpa [Nat.factorial, wrap32] using h
  have hall : ∀ os : String, string_demo os =
      os ++ "Input: Hello from string_demo\nFactorial(5): 120\n" := by
    intro os
    simp only [string_demo, echo_input, put_endl, put_str, hf, print_result_eq,
      String.append_assoc]
    rfl
  exact ⟨hall "", hall⟩

/-! ## Termination and recursion depth of `factorial` -/

/-- A run with `fuel` call frames succeeds exactly when `fuel` exceeds the
number `(n - 1).toNat` of recursive calls, and then gives `factorial n`. -/
theorem factorialFuel_eq (fuel : Nat) :
    ∀ n : Int, factorialFuel fuel n =
      if (n - 1).toNat < fuel then some (factorial n) else none := by
  induction fuel with
  | zero =>
    intro n
    simp [factorialFuel]
  | succ fuel ih =>
    intro n
    by_cases h : n ≤ 1
    · have hz : (n - 1).toNat = 0 := by omega
      simp [factorialFuel, h, hz, factorial_of_le_one n h]
    · have h1 : 1 < n := not_le.mp h
      rw [factorialFuel, if_neg h, ih (n - 1)]
      by_cases hf : (n - 1 - 1).toNat < fuel
      · have hf2 : (n - 1).toNat < fuel + 1 := by omega
        rw [if_pos hf, if_pos hf2, factorial_of_one_lt n h1]
      · have hf2 : ¬ (n - 1).toNat < fuel + 1 := by omega
        rw [if_neg hf, if_neg hf2]

/-- The recursive calls of `factorial n` are made on `n - 1, n - 2, ..., 1`. -/
theorem factorialTrace_snd (m : Nat) :
    ∀ n : Int, (n - 1).toNat = m →
      (factorialTrace n).2 = (List.range m).map (fun j : Nat => n - 1 - (j : Int)) := by
  induction m with
  | zero =>
    intro n hm
    rw [factorialTrace_of_le_one n (by omega)]
    rfl
  | succ m ih =>
    intro n hm
    have h1 : 1 < n := by omega
    rw [factorialTrace_of_one_lt n h1]
    simp only
    rw [ih (n - 1) (by omega), List.range_succ_eq_map, List.map_cons, List.map_map]
    congr 1
    · simp
    · apply List.map_congr_left
      intro j _
      simp only [Function.comp_apply]
      push_cast
      ring

/-- The function is the wrapped mathematical factorial on every input: an
input `n ≤ 0` gives 1, which is `0!`. -/
theorem factorial_eq_wrap32 (n : Int) :
    factorial n = wrap32 (n.toNat.factorial : Int) := by
  by_cases h : 0 ≤ n
  · have h1 := factorial_natCast n.toNat
    rwa [Int.toNat_of_nonneg h] at h1
  · have hz : n.toNat = 0 := by omega
    rw [factorial_of_le_one n (by omega), hz]
    decide

/-- C11, refuted as stated: at the negative input `-1` the call returns 1 in
its first call frame and makes no recursive call, so the recursion is not
runaway. -/
theorem factorial_negative_counterexample :
    (-1 : Int) < 0 ∧ factorialFuel 1 (-1) = some 1 ∧ (factorialTrace (-1)).2 = [] :=
  ⟨by decide, by decide, by rw [factorialTrace_of_le_one _ (by decide)]⟩

/-- C11, amended: `factorial` is defined for negative inputs too; for a
negative `n` the base case `n ≤ 1` is reached in the first call, so the
chain of recursive calls is empty and the call terminates with result 1,
whatever positive number of call frames is available. -/
theorem factorial_negative_terminates (n : Int) (h : n < 0) :
    factorialFuel 1 n = some 1 ∧
      (∀ fuel : Nat, 1 ≤ fuel → factorialFuel fuel n = some 1) ∧
      (factorialTrace n).2 = [] ∧ factorial n = 1 := by
  have hle : n ≤ 1 := by omega
  have hz : (n - 1).toNat = 0 := by omega
  have hf : ∀ fuel : Nat, 1 ≤ fuel → factorialFuel fuel n = some 1 := by
    intro fuel hfuel
    rw [factorialFuel_eq, hz, if_pos (by omega), factorial_of_le_one n hle]
  refine ⟨hf 1 (le_refl 1), hf, ?_, factorial_of_le_one n hle⟩
  rw [factorialTrace_of_le_one n hle]

theorem factorial_negative_terminates_witness :
    (-2147483648 : Int) < 0 ∧ factorialFuel 1 (-2147483648) = some 1 ∧
      factorial (-2147483648) = 1 :=
  ⟨by decide, (factorial_negative_terminates (-2147483648) (by decide)).1,
    (factorial_negative_terminates (-2147483648) (by decide)).2.2.2⟩

/-! ## Recursive and iterative factorial -/

theorem wrap32_wrap32_mul (a b : Int) : wrap32 (wrap32 a * b) = wrap32 (a * b) := by
  rw [mul_comm, wrap32_mul_wrap32, mul_comm]

/-- After the iterations `i = 2, ..., k + 1` the accumulator of the loop
holds the wrapped `(k + 1)!`. -/
theorem iterative_loop_spec (k : Nat) :
    (List.range' 2 k).foldl (fun (acc : Int) (i : Nat) => wrap32 (acc * (i : Int))) 1 =
      wrap32 ((k + 1).factorial : Int) := by
  induction k with
  | zero => decide
  | succ k ih =>
    rw [List.range'_1_concat, List.foldl_append]
    simp only [List.foldl_cons, List.foldl_nil]
    rw [ih]
    have e : ((k + 1).factorial : Int) * ((2 + k : Nat) : Int) =
        (((k + 1 + 1).factorial : Nat) : Int) := by
      rw [Nat.factorial_succ (k + 1)]
      push_cast
      ring
    rw [wrap32_wrap32_mul ((k + 1).factorial : Int) ((2 + k : Nat) : Int), e]

/-- C12: for every `n ≥ 0` (indeed for every `n`), the recursive `factorial`
returns the same value as the iterative loop that starts with `acc = 1` and
multiplies `acc` by `i` for `i = 2, ..., n` with 32-bit wraparound. -/
theorem factorial_eq_iterative (n : Int) :
    factorial n = factorial_iterative n ∧
      (0 ≤ n → factorial n = factorial_iterative n) := by
  have key : factorial n = factorial_iterative n := by
    rw [factorial_eq_wrap32, factorial_iterative, iterative_loop_spec]
    by_cases h : n.toNat = 0
    · rw [h]
      rfl
    · have h1 : n.toNat - 1 + 1 = n.toNat := by omega
      rw [h1]
  exact ⟨key, fun _ => key⟩

theorem factorial_eq_iterative_witness :
    (0 : Int) ≤ 13 ∧ factorial 13 = factorial_iterative 13 ∧
      factorial_iterative 13 = 1932053504 :=
  ⟨by decide, (factorial_eq_iterative 13).2 (by decide), by decide⟩

/-! ## Silent overflow of `factorial` -/

/-- C13: for every `n ≥ 0`, `factorial n` is the mathematical `n!` reduced to
32 bits by two's-complement wraparound: it is a 32-bit value congruent to
`n!` modulo `2 ^ 32`.  For `n = 13` the function returns 1932053504, which
differs from `13! = 6227020800`; the function has no error result. -/
theorem factorial_wraps (n : Int) (h : 0 ≤ n) :
    ((n.toNat : Nat) : Int) = n ∧
      factorial n = wrap32 (n.toNat.factorial : Int) ∧
      isInt32 (factorial n) ∧
      (factorial n - (n.toNat.factorial : Int)) % 2 ^ 32 = 0 ∧
      factorial 13 = 1932053504 ∧ Nat.factorial 13 = 6227020800 ∧
      factorial 13 ≠ (Nat.factorial 13 : Int) := by
  have h13 : factorial 13 = 1932053504 := by
    rw [factorial_eq_wrap32]
    decide
  have hn := factorial_eq_wrap32 n
  refine ⟨Int.toNat_of_nonneg h, hn, ?_, ?_, h13, by decide, ?_⟩
  · rw [hn]
    exact wrap32_isInt32 _
  · rw [hn]
    exact wrap32_sub_emod _
  · rw [h13]
    decide

theorem factorial_wraps_witness :
    (0 : Int) ≤ 14 ∧ factorial 14 = wrap32 ((14 : Int).toNat.factorial : Int) ∧
      wrap32 ((14 : Int).toNat.factorial : Int) = 1278945280 :=
  ⟨by decide, (factorial_wraps 14 (by decide)).2.1, by decide⟩

/-! ## Recursion depth of `factorial` -/

/-- Each recursive call is made on an argument below that of its caller. -/
theorem factorialTrace_chain (m : Nat) :
    ∀ n : Int, (n - 1).toNat = m →
      List.Chain (fun a b : Int => b < a) n (factorialTrace n).2 := by
  induction m with
  | zero =>
    intro n hm
    rw [factorialTrace_of_le_one n (by omega)]
    exact List.Chain.nil
  | succ m ih =>
    intro n hm
    rw [factorialTrace_of_one_lt n (by omega)]
    exact List.Chain.cons (by omega) (ih (n - 1) (by omega))

/-- C15: for every 32-bit `n` (indeed every integer), the call `factorial n`
terminates and makes exactly `max (n - 1) 0` nested recursive calls: none for
`n ≤ 1` and `n - 1` for `n ≥ 2`.  The calls are made on `n - 1, n - 2, ..., 1`:
each argument is below the previous one and none is below 1.  With
`max (n - 1) 0 + 1` call frames the run returns `factorial n`, with fewer it
does not reach the base case. -/
theorem factorial_recursion_depth (n : Int) :
    ((factorialTrace n).2.length : Int) = max (n - 1) 0 ∧
      (factorialTrace n).2 =
        (List.range (n - 1).toNat).map (fun j : Nat => n - 1 - (j : Int)) ∧
      (∀ a ∈ (factorialTrace n).2, 1 ≤ a ∧ a < n) ∧
      List.Chain (fun a b : Int => b < a) n (factorialTrace n).2 ∧
      (factorialTrace n).1 = factorial n ∧
      factorialFuel ((n - 1).toNat + 1) n = some (factorial n) ∧
      (∀ fuel : Nat, fuel ≤ (n - 1).toNat → factorialFuel fuel n = none) ∧
      (n ≤ 1 → (factorialTrace n).2 = []) ∧
      (2 ≤ n → ((factorialTrace n).2.length : Int) = n - 1) := by
  have htr := factorialTrace_snd (n - 1).toNat n rfl
  have hlen : (factorialTrace n).2.length = (n - 1).toNat := by
    rw [htr]
    simp
  refine ⟨?_, htr, ?_, factorialTrace_chain _ n rfl, factorialTrace_fst n, ?_, ?_, ?_, ?_⟩
  · rw [hlen]
    omega
  · intro a ha
    rw [htr] at ha
    obtain ⟨j, hj, rfl⟩ := List.mem_map.mp ha
    have hj2 : j < (n - 1).toNat := List.mem_range.mp hj
    omega
  · rw [factorialFuel_eq, if_pos (by omega)]
  · intro fuel hfuel
    rw [factorialFuel_eq, if_neg (by omega)]
  · intro h
    rw [factorialTrace_of_le_one n h]
  · intro h
    rw [hlen]
    omega

theorem factorial_recursion_depth_witness :
    (2 : Int) ≤ 2147483647 ∧
      ((factorialTrace 2147483647).2.length : Int) = 2147483647 - 1 :=
  ⟨by decide, (factorial_recursion_depth 2147483647).2.2.2.2.2.2.2.2 (by decide)⟩

/-! ## Collapse of `factorial` to zero -/

theorem wrap32_eq_zero_iff (z : Int) : wrap32 z = 0 ↔ z % 4294967296 = 0 := by
  unfold wrap32
  omega

theorem factorial_eq_zero_iff (n : Int) :
    factorial n = 0 ↔ 4294967296 ∣ n.toNat.factorial := by
  rw [factorial_eq_wrap32, wrap32_eq_zero_iff]
  constructor
  · intro h
    exact Int.natCast_dvd_natCast.mp (Int.dvd_of_emod_eq_zero h)
  · intro h
    exact Int.emod_eq_zero_of_dvd (Int.natCast_dvd_natCast.mpr h)

/-- C17: under 32-bit wraparound `factorial n = 0` for every `n ≥ 34`,
because `2 ^ 32` divides `34!` and so every later factorial, while
`factorial n` is non-zero for every `n < 34`, in particular for `n = 33`:
34 is the smallest input with result 0. -/
theorem factorial_zero_from_34 (n : Int) :
    (34 ≤ n → factorial n = 0) ∧
      (n < 34 → factorial n ≠ 0) ∧
      factorial 33 ≠ 0 ∧ factorial 34 = 0 ∧
      2 ^ 32 ∣ Nat.factorial 34 ∧ ¬ 2 ^ 32 ∣ Nat.factorial 33 := by
  have h34 : 4294967296 ∣ Nat.factorial 34 := by decide
  have h33 : ¬ 4294967296 ∣ Nat.factorial 33 := by decide
  have hlt : ∀ k : Int, k < 34 → factorial k ≠ 0 := by
    intro k hk h0
    have hd := (factorial_eq_zero_iff k).mp h0
    have hle : k.toNat ≤ 33 := by omega
    exact h33 (Dvd.dvd.trans hd (Nat.factorial_dvd_factorial hle))
  have hge : ∀ k : Int, 34 ≤ k → factorial k = 0 := by
    intro k hk
    have hle : 34 ≤ k.toNat := by omega
    exact (factorial_eq_zero_iff k).mpr
      (Dvd.dvd.trans h34 (Nat.factorial_dvd_factorial hle))
  exact ⟨hge n, hlt n, hlt 33 (by decide), hge 34 (by decide), h34, h33⟩

theorem factorial_zero_from_34_witness :
    (34 : Int) ≤ 2147483647 ∧ factorial 2147483647 = 0 ∧
      (33 : Int) < 34 ∧ factorial 33 ≠ 0 :=
  ⟨by decide, (factorial_zero_from_34 2147483647).1 (by decide), by decide,
    (factorial_zero_from_34 33).2.1 (by decide)⟩

/-! ## Memory accesses of `sum_array` -/

theorem sum_array_run_loop_done (arr : List Int) (size i sum : Int) (h : ¬ i < size) :
    sum_array_run_loop arr size i sum = { result := some sum, reads := [], cells := arr } := by
  rw [sum_array_run_loop, if_neg h]

theorem sum_array_run_loop_step (arr : List Int) (size i sum a : Int) (h : i < size)
    (ha : arr[i.toNat]? = some a) :
    sum_array_run_loop arr size i sum =
      { result := (sum_array_run_loop arr size (i + 1) (wrap32 (sum + a))).result,
        reads := i :: (sum_array_run_loop arr size (i + 1) (wrap32 (sum + a))).reads,
        cells := (sum_array_run_loop arr size (i + 1) (wrap32 (sum + a))).cells } := by
  rw [sum_array_run_loop, if_pos h, ha]

theorem sum_array_run_loop_oob (arr : List Int) (size i sum : Int) (h : i < size)
    (ha : arr[i.toNat]? = none) :
    sum_array_run_loop arr size i sum = { result := none, reads := [i], cells := arr } := by
  rw [sum_array_run_loop, if_pos h, ha]

/-- The instrumented loop returns what the loop returns and hands the cells
back as they were, on every input. -/
theorem sum_array_run_loop_result (arr : List Int) (size : Int) (m : Nat) :
    ∀ (i s : Int), (size - i).toNat = m →
      (sum_array_run_loop arr size i s).result = sum_array_loop arr size i s ∧
        (sum_array_run_loop arr size i s).cells = arr := by
  induction m with
  | zero =>
    intro i s hm
    have h : ¬ i < size := by omega
    rw [sum_array_run_loop_done _ _ _ _ h, sum_array_loop_done _ _ _ _ h]
    exact ⟨rfl, rfl⟩
  | succ m ih =>
    intro i s hm
    have h : i < size := by omega
    cases ha : arr[i.toNat]? with
    | none =>
      rw [sum_array_run_loop_oob _ _ _ _ h ha, sum_array_loop_oob _ _ _ _ h ha]
      exact ⟨rfl, rfl⟩
    | some a =>
      rw [sum_array_run_loop_step _ _ _ _ a h ha, sum_array_loop_step _ _ _ _ a h ha]
      exact ih (i + 1) (wrap32 (s + a)) (by omega)

/-- Within the bounds of the array, the loop entered at index `j` reads the
indices `j, j + 1, ..., n - 1`, each once and in this order. -/
theorem sum_array_run_loop_reads (arr : List Int) (n : Nat) (hn : n ≤ arr.length) :
    ∀ (m j : Nat) (s : Int), j + m = n →
      (sum_array_run_loop arr (n : Int) (j : Int) s).reads =
        (List.range' j m).map (fun k : Nat => (k : Int)) := by
  intro m
  induction m with
  | zero =>
    intro j s hj
    have h : ¬ (j : Int) < (n : Int) := by omega
    rw [sum_array_run_loop_done _ _ _ _ h]
    rfl
  | succ m ih =>
    intro j s hj
    have hjl : j < arr.length := by omega
    have hget : arr[((j : Nat) : Int).toNat]? = some arr[j] := by
      simp [List.getElem?_eq_getElem hjl]
    rw [sum_array_run_loop_step arr n j s arr[j] (by omega) hget]
    have hcast : ((j : Nat) : Int) + 1 = ((j + 1 : Nat) : Int) := by push_cast; rfl
    simp only
    rw [hcast, ih (j + 1) _ (by omega), List.range'_succ, List.map_cons]

/-- C14: under `0 ≤ size ≤ length arr`, the indices read by
`sum_array arr size` are exactly `0, 1, ..., size - 1`, each once and in
ascending order; each of them is in bounds, so the out-of-bounds branch is
not taken and a value is returned; and the cells of `arr` are unchanged. -/
theorem sum_array_reads_in_bounds (arr : List Int) (size : Int) (h0 : 0 ≤ size)
    (hlen : size ≤ arr.length) :
    (sum_array_run arr size).reads =
        (List.range size.toNat).map (fun k : Nat => (k : Int)) ∧
      (∀ i ∈ (sum_array_run arr size).reads, 0 ≤ i ∧ i < arr.length) ∧
      (sum_array_run arr size).result = sum_array arr size ∧
      (sum_array_run arr size).result ≠ none ∧
      (sum_array_run arr size).cells = arr := by
  obtain ⟨k, rfl⟩ := Int.eq_ofNat_of_zero_le h0
  have hn : k ≤ arr.length := by exact_mod_cast hlen
  have hreads : (sum_array_run arr (k : Int)).reads =
      (List.range k).map (fun j : Nat => (j : Int)) := by
    have h := sum_array_run_loop_reads arr k hn k 0 0 (by omega)
    rw [List.range_eq_range']
    simpa [sum_array_run] using h
  have hres := sum_array_run_loop_result arr (k : Int) _ 0 0 rfl
  have hres1 : (sum_array_run arr (k : Int)).result = sum_array arr (k : Int) := hres.1
  rw [Int.toNat_ofNat]
  refine ⟨hreads, ?_, hres1, ?_, hres.2⟩
  · intro i hi
    rw [hreads] at hi
    obtain ⟨j, hj, rfl⟩ := List.mem_map.mp hi
    have hj2 : j < k := List.mem_range.mp hj
    omega
  · rw [hres1, sum_array_eq arr k hn]
    exact Option.some_ne_none _

theorem sum_array_reads_in_bounds_witness :
    (0 : Int) ≤ 2 ∧ (2 : Int) ≤ ([7, 8, 9] : List Int).length ∧
      (sum_array_run [7, 8, 9] 2).reads =
        (List.range (2 : Int).toNat).map (fun k : Nat => (k : Int)) ∧
      (sum_array_run [7, 8, 9] 2).cells = [7, 8, 9] :=
  ⟨by decide, by decide,
    (sum_array_reads_in_bounds [7, 8, 9] 2 (by decide) (by decide)).1,
    (sum_array_reads_in_bounds [7, 8, 9] 2 (by decide) (by decide)).2.2.2.2⟩

/-- C16: for every `arr`, the empty one included, and every `size ≤ 0`,
negative sizes included, `sum_array arr size` returns 0 and reads no element
of `arr`: the loop condition `0 < size` fails at once. -/
theorem sum_array_nonpositive_size (arr : List Int) (size : Int) (h : size ≤ 0) :
    sum_array arr size = some 0 ∧
      (sum_array_run arr size).result = some 0 ∧
      (sum_array_run arr size).reads = [] ∧
      (sum_array_run arr size).cells = arr := by
  have hc : ¬ (0 : Int) < size := by omega
  have hrun : sum_array_run arr size = { result := some 0, reads := [], cells := arr } :=
    sum_array_run_loop_done arr size 0 0 hc
  rw [hrun]
  exact ⟨sum_array_loop_done arr size 0 0 hc, rfl, rfl, rfl⟩

theorem sum_array_nonpositive_size_witness :
    (-2147483648 : Int) ≤ 0 ∧ sum_array [] (-2147483648) = some 0 ∧
      (sum_array_run [] (-2147483648)).reads = [] :=
  ⟨by decide, (sum_array_nonpositive_size [] (-2147483648) (by decide)).1,
    (sum_array_nonpositive_size [] (-2147483648) (by decide)).2.2.1⟩

end XEUtil
